import Mathlib

/-!
Verification of the Weenix virtual-memory core: a shallow embedding of the
vmmap / mmobj / page-fault / brk / fork code, with theorems checking the
natural-language specification against it.

Each definition is translated from the C source (`kernel/vm/vmmap.c`,
`kernel/vm/mmap.c`, the shadow and anonymous mmobj implementations,
`do_brk`, `do_fork`).  Machine integers are modelled as `Nat` (the source
uses `uint32_t` page numbers; no overflow occurs in the ranges the claims
cover).  External collaborators missing from the source tree (the pframe
cache, `mm/mmobj.h` macros, header constants) are modelled from the spec
and marked as such in their doc comments.
-/

namespace Weenix

/-! ## Constants

Header constants.  The headers (`mm/mm.h`, `mm/mman.h`, `vm/pagefault.h`,
`errno.h`, `vm/vmmap.h`) are not part of the source tree; the values below
are modelled from the spec's description: protections are a bitset over
read/write/execute with NONE the empty set, flags are distinct bits with
exactly one of SHARED/PRIVATE required, the user range is a fixed window
of the 32-bit address space. -/

def PAGE_SIZE : Nat := 4096

def USER_MEM_LOW : Nat := 0x00400000

def USER_MEM_HIGH : Nat := 0xc0000000

def ADDR_TO_PN (a : Nat) : Nat := a / PAGE_SIZE

def PN_TO_ADDR (p : Nat) : Nat := p * PAGE_SIZE

/-- `PAGE_ALIGN_UP` rounds an address up to the next page boundary. -/
def PAGE_ALIGN_UP (a : Nat) : Nat := ((a + PAGE_SIZE - 1) / PAGE_SIZE) * PAGE_SIZE

def PROT_NONE : Nat := 0x0

def PROT_READ : Nat := 0x1

def PROT_WRITE : Nat := 0x2

def PROT_EXEC : Nat := 0x4

def MAP_SHARED : Nat := 0x1

def MAP_PRIVATE : Nat := 0x2

def MAP_FIXED : Nat := 0x4

def MAP_ANON : Nat := 0x8

def FAULT_PRESENT : Nat := 0x01

def FAULT_WRITE : Nat := 0x02

def FAULT_USER : Nat := 0x04

def FAULT_RESERVED : Nat := 0x08

def FAULT_EXEC : Nat := 0x10

def VMMAP_DIR_HILO : Nat := 1

def VMMAP_DIR_LOHI : Nat := 2

def EINVAL : Nat := 22

def ENOMEM : Nat := 12

def EFAULT : Nat := 14

/-! ## Virtual memory areas (`vmarea_t`) and the address-space map

`vmarea_t` carries `vma_start`/`vma_end` (half-open page range),
`vma_off`, `vma_prot`, `vma_flags`, and the owning mmobj pointer
(`vma_obj`, modelled as an object id into a store).  `aid` models the
identity (address) of the vmarea struct itself, used for the olink
membership in a bottom object's vmarea list.  A vmmap's area list is
modelled as a `List VArea` in list order. -/

structure VArea where
  start : Nat
  end_ : Nat
  off : Nat
  prot : Nat
  flags : Nat
  obj : Nat
  aid : Nat
deriving DecidableEq, Repr

/-- `vmmap_lookup` from `vmmap.c`: scan the list for the first area whose
range covers `vfn`, returning it, else null (`none`). -/
def vmmap_lookup (l : List VArea) (vfn : Nat) : Option VArea :=
  l.find? (fun vma => decide (vma.start ≤ vfn ∧ vfn < vma.end_))

/-- `vmmap_insert` from `vmmap.c`: walk the list and insert the new area
before the first existing area whose `vma_start` exceeds the new area's,
else at the tail. -/
def vmmap_insert (l : List VArea) (newvma : VArea) : List VArea :=
  match l with
  | [] => [newvma]
  | vma :: rest =>
    if newvma.start < vma.start then newvma :: vma :: rest
    else vma :: vmmap_insert rest newvma

/-- `vmmap_is_range_empty` from `vmmap.c`: 1 iff no area intersects
`[startvfn, startvfn+npages)`. -/
def vmmap_is_range_empty (l : List VArea) (startvfn npages : Nat) : Bool :=
  let endvfn := startvfn + npages
  l.all (fun vma =>
    !(decide ((startvfn ≤ vma.start ∧ vma.start < endvfn) ∨
              (startvfn < vma.end_ ∧ vma.end_ ≤ endvfn) ∨
              (vma.start ≤ startvfn ∧ startvfn < vma.end_))))

/-- The per-area case analysis of `vmmap_remove` (`vmmap.c`): the body of
the `list_iterate_begin` loop, giving the areas that replace `vma`.
Case 1 splits the area in two (the second half is a `memcpy` of the
original with `vma_start` advanced to `highpage`; `vmmap_insert` places it
right after the first half, which this embedding keeps adjacent); case 2
shortens `vma_end`; case 3 advances `vma_start` and adjusts `vma_off`
downward as the source does; case 4 drops the area. -/
def vmmap_remove_case (lopage highpage : Nat) (vma : VArea) : List VArea :=
  if vma.start < lopage then
    if highpage < vma.end_ then
      [{ vma with end_ := lopage }, { vma with start := highpage }]
    else if lopage < vma.end_ then
      [{ vma with end_ := lopage }]
    else
      [vma]
  else if vma.start ≤ highpage ∧ highpage < vma.end_ then
    [{ vma with start := highpage, off := vma.off - (highpage - vma.start) }]
  else if vma.end_ ≤ highpage then
    []
  else
    [vma]

/-- `vmmap_remove` from `vmmap.c`: iterate over every area, excising the
range `[lopage, lopage+npages)` by the four-case analysis. -/
def vmmap_remove (l : List VArea) (lopage npages : Nat) : List VArea :=
  l.flatMap (vmmap_remove_case lopage (lopage + npages))

/-- The LOHI loop of `vmmap_find_range` (`vmmap.c`): `low` starts at
`ADDR_TO_PN(USER_MEM_LOW)`; at each area the gap `[low, vma_start)` is
tested, then `low` advances to `vma_end`; after the loop the final gap up
to `ADDR_TO_PN(USER_MEM_HIGH)` is tested. -/
def find_range_lohi (npages : Nat) : Nat → List VArea → Option Nat
  | low, [] =>
    if ADDR_TO_PN USER_MEM_HIGH - low ≥ npages then some low else none
  | low, vma :: rest =>
    if vma.start - low ≥ npages then some low
    else find_range_lohi npages vma.end_ rest

/-- The HILO loop of `vmmap_find_range` (`vmmap.c`), which iterates the
area list in reverse (this function receives the reversed list): `high`
starts at `ADDR_TO_PN(USER_MEM_HIGH)`; at each area the gap above
`vma_end` is tested (returning `high - npages`, the top of the gap), then
`high` drops to `vma_start`; after the loop the final gap down to
`ADDR_TO_PN(USER_MEM_LOW)` is tested. -/
def find_range_hilo (npages : Nat) : Nat → List VArea → Option Nat
  | high, [] =>
    if high - ADDR_TO_PN USER_MEM_LOW ≥ npages then some (high - npages) else none
  | high, vma :: rest =>
    if high - vma.end_ ≥ npages then some (high - npages)
    else find_range_hilo npages vma.start rest

/-- `vmmap_find_range` from `vmmap.c`: first-fit search for `npages` free
pages, from the bottom for `VMMAP_DIR_LOHI` and from the top for
`VMMAP_DIR_HILO`; `-1` when no gap is large enough.  The function only
reads the map. -/
def vmmap_find_range (l : List VArea) (npages : Nat) (dir : Nat) : Int :=
  if dir = VMMAP_DIR_LOHI then
    match find_range_lohi npages (ADDR_TO_PN USER_MEM_LOW) l with
    | some s => Int.ofNat s
    | none => -1
  else
    match find_range_hilo npages (ADDR_TO_PN USER_MEM_HIGH) l.reverse with
    | some s => Int.ofNat s
    | none => -1

/-- The effect of `vmmap_map` (`vmmap.c`) on the vmarea list.  The mmobj
resolution (anonymous / file / shadow) is orthogonal to the list shape and
is received here as the prebuilt `obj`/`aid` of the new area.  With
`lopage = 0` a range is chosen by `vmmap_find_range` (error `none` when it
fails); with `lopage ≠ 0` the source unmaps the range only when
`vmmap_lookup map lopage` finds an area, then inserts the new area. -/
def vmmap_map (l : List VArea) (lopage npages prot flags : Nat) (off : Nat)
    (dir : Nat) (obj aid : Nat) : Option (List VArea × VArea) :=
  if lopage = 0 then
    match vmmap_find_range l npages dir with
    | Int.negSucc _ => none
    | Int.ofNat s =>
      let new_area : VArea :=
        { start := s, end_ := s + npages, off := off, prot := prot,
          flags := flags, obj := obj, aid := aid }
      some (vmmap_insert l new_area, new_area)
  else
    let new_area : VArea :=
      { start := lopage, end_ := lopage + npages, off := off, prot := prot,
        flags := flags, obj := obj, aid := aid }
    let l2 := if (vmmap_lookup l lopage).isSome
              then vmmap_remove l lopage npages else l
    some (vmmap_insert l2 new_area, new_area)

/-- Sorted-and-disjoint invariant on a vmarea list, as the spec states it:
areas are ordered by `start_vpn` and pairwise disjoint (each area ends no
later than any later area starts). -/
def sortedDisjoint (l : List VArea) : Prop :=
  List.Pairwise (fun a b => a.end_ ≤ b.start) l

instance sortedDisjoint.dec (l : List VArea) : Decidable (sortedDisjoint l) :=
  inferInstanceAs (Decidable (List.Pairwise _ l))

/-! ## Shadow chains and `shadow_lookuppage`

For the shadow read walk the mmobj chain is modelled structurally: a chain
is a finite tower of shadow objects (each carrying its resident-page map,
`pframe_get_resident` probing it) over one bottom non-shadow object
(whose `pframe_get` is modelled as a total page-producing function, as the
page cache fills on miss).  Frames are identified by `Nat` ids.  The `while
(pframe_is_busy ...)` wait applies only to concurrent fills and is absent
from this quiescent model. -/

inductive MMObj where
  | shadow (res : Nat → Option Nat) (shadowed : MMObj)
  | bottom (get : Nat → Nat)

/-- The `forwrite = 0` branch of `shadow_lookuppage` (shadow mmobj code):
iterate down the chain; at each shadow object probe
`pframe_get_resident(o, pagenum)` and return the frame if resident; at the
bottom non-shadow object delegate to `pframe_get(o, pagenum, pf)`. -/
def shadow_lookuppage_read (pagenum : Nat) : MMObj → Nat
  | .shadow res shadowed =>
    match res pagenum with
    | some pf => pf
    | none => shadow_lookuppage_read pagenum shadowed
  | .bottom get => get pagenum

/-- The resident-page maps of the shadow objects of a chain, nearest
first. -/
def chainResidents : MMObj → List (Nat → Option Nat)
  | .shadow res shadowed => res :: chainResidents shadowed
  | .bottom _ => []

/-- The bottom non-shadow object's page lookup. -/
def bottomGet : MMObj → (Nat → Nat)
  | .shadow _ shadowed => bottomGet shadowed
  | .bottom get => get

/-! ## Reference-counted mmobj records

For reference counting, creation and release the mmobj is modelled as a
record (`mmobj_t`): `shadowed` link, the `mmo_un` union (`bottomObj` for
shadows, `vmas` for bottom objects, discriminated by `shadowed`),
reference count and resident pages.  Resident pages (`pframe_t`) carry
their page number and pin count. -/

structure PFrame where
  pagenum : Nat
  pincount : Nat
deriving DecidableEq, Repr

structure MMObjRec where
  shadowed : Option Nat
  bottomObj : Option Nat
  refcount : Nat
  respages : List PFrame
  vmas : List Nat
deriving DecidableEq, Repr

/-- Modelled from the spec: `mmobj_init` (from `mm/mmobj.h`, not in the
source tree) initializes a fresh mmobj with zero reference count, zero
resident pages, empty lists and null links. -/
def mmobj_init : MMObjRec :=
  { shadowed := none, bottomObj := none, refcount := 0, respages := [], vmas := [] }

/-- `shadow_create` (shadow mmobj code): allocate, `mmobj_init`, then
`++o->mmo_refcount`. -/
def shadow_create : MMObjRec :=
  { mmobj_init with refcount := mmobj_init.refcount + 1 }

/-- `anon_create` (anonymous mmobj code): allocate, `mmobj_init`, then
`++anon->mmo_refcount`. -/
def anon_create : MMObjRec :=
  { mmobj_init with refcount := mmobj_init.refcount + 1 }

/-- Modelled from the spec: `pframe_unpin` (the page cache is external)
decrements the frame's pin count. -/
def pframe_unpin (pf : PFrame) : PFrame :=
  { pf with pincount := pf.pincount - 1 }

/-- Result of a `put` entry point: the surviving object (`none` when the
object was reaped and freed), the frames unpinned and freed, the number of
`put` calls released on the `mmo_shadowed` parent, and whether every
`KASSERT` on the path held. -/
structure PutResult where
  obj : Option MMObjRec
  freed : List PFrame
  parentPuts : Nat
  asserts : Bool
deriving DecidableEq, Repr

/-- `shadow_put` (shadow mmobj code): decrement the refcount; if it now
equals `mmo_nrespages`, unpin and free every resident page (the source
loop re-increments `mmo_refcount` once per freed page to compensate the
page cache's own release of the object, leaving zero resident pages),
release one reference on `mmo_shadowed`, and free the object; otherwise
only the decrement happens.  `asserts` records
`KASSERT(o->mmo_refcount > 0)` and, on the reap path,
`KASSERT(o->mmo_shadowed)`. -/
def shadow_put (o : MMObjRec) : PutResult :=
  if o.refcount - 1 = o.respages.length then
    { obj := none,
      freed := o.respages.map pframe_unpin,
      parentPuts := 1,
      asserts := decide (0 < o.refcount) && o.shadowed.isSome }
  else
    { obj := some { o with refcount := o.refcount - 1 },
      freed := [],
      parentPuts := 0,
      asserts := decide (0 < o.refcount) }

/-- `anon_put` (anonymous mmobj code): the source tests
`o->mmo_refcount - 1 == o->mmo_nrespages`; on the reap path it unpins and
frees every resident page, decrements the refcount and frees the object;
on the other path it returns without touching the object (the decrement
appears only inside the reap branch). -/
def anon_put (o : MMObjRec) : PutResult :=
  if o.refcount - 1 = o.respages.length then
    { obj := none,
      freed := o.respages.map pframe_unpin,
      parentPuts := 0,
      asserts := decide (0 < o.refcount) }
  else
    { obj := some o,
      freed := [],
      parentPuts := 0,
      asserts := decide (0 < o.refcount) }

/-! ## Page-fault handler (`handle_pagefault`, `vm/pagefault.c`) -/

/-- Outcome of `handle_pagefault`: the process is killed with an exit
status, or a PTE is installed for the faulting page (carrying whether the
PTE is writable). -/
inductive FaultOutcome where
  | killed (status : Nat)
  | mapped (writable : Bool)
deriving DecidableEq, Repr

/-- `handle_pagefault` from `vm/pagefault.c` (the version with the
`PROT_NONE` test): look up the faulting page's vmarea (missing kills the
process with `EFAULT`); kill with `EFAULT` when a write fault lacks
`PROT_WRITE`, an execute fault lacks `PROT_EXEC`, or
`PROT_NONE & vma->vma_prot` is non-zero; otherwise fetch the frame via
`pframe_lookup(vma_obj, pn - vma_start + vma_off, forwrite)` and install a
PTE, writable exactly when the fault was a write (`pt_map` success is
assumed; its failure kills with `ENOMEM`). -/
def handle_pagefault (m : List VArea) (vaddr : Nat) (cause : Nat) : FaultOutcome :=
  let pn := ADDR_TO_PN vaddr
  match vmmap_lookup m pn with
  | none => .killed EFAULT
  | some vma =>
    if (cause &&& FAULT_WRITE ≠ 0 ∧ vma.prot &&& PROT_WRITE = 0) ∨
       (cause &&& FAULT_EXEC ≠ 0 ∧ vma.prot &&& PROT_EXEC = 0) ∨
       (PROT_NONE &&& vma.prot ≠ 0) then
      .killed EFAULT
    else
      .mapped (cause &&& FAULT_WRITE ≠ 0)

/-! ## Heap break (`do_brk`) -/

/-- The process state `do_brk` touches: heap window and address-space
map. -/
structure ProcVM where
  start_brk : Nat
  brk : Nat
  vmmap : List VArea
deriving DecidableEq, Repr

/-- Result of `do_brk`: success with the value stored through `ret`, a
negative errno (returned as the positive errno value), or a `KASSERT`
failure. -/
inductive BrkResult where
  | ok (ret : Nat)
  | err (errno : Nat)
  | assertFail
deriving DecidableEq, Repr

/-- Replace the first area containing `vfn` (the one `vmmap_lookup`
returns) using `f`; models in-place mutation of the found vmarea. -/
def updateLookup (l : List VArea) (vfn : Nat) (f : VArea → VArea) : List VArea :=
  match l with
  | [] => []
  | vma :: rest =>
    if vma.start ≤ vfn ∧ vfn < vma.end_ then f vma :: rest
    else vma :: updateLookup rest vfn f

/-- `do_brk` from the brk syscall source: null `addr` returns the current
break; `addr < p_start_brk` is `-ENOMEM`; the vmarea holding the page
below the current break is looked up (`KASSERT(vma)`); the new end page is
`ADDR_TO_PN(PAGE_ALIGN_UP(addr))`, rejected with `-ENOMEM` when
`newpage > USER_MEM_HIGH` (the source compares the page number against the
address constant) or when `vmmap_lookup(map, newpage-1)` finds an area;
otherwise `vma_end` and `p_brk` are set from `newpage`. -/
def do_brk (p : ProcVM) (addr : Option Nat) : ProcVM × BrkResult :=
  match addr with
  | none => (p, .ok p.brk)
  | some a =>
    if a < p.start_brk then (p, .err ENOMEM)
    else
      let curpage := ADDR_TO_PN p.brk
      match vmmap_lookup p.vmmap (curpage - 1) with
      | none => (p, .assertFail)
      | some _ =>
        let newpage := ADDR_TO_PN (PAGE_ALIGN_UP a)
        if newpage > USER_MEM_HIGH then (p, .err ENOMEM)
        else if (vmmap_lookup p.vmmap (newpage - 1)).isSome then (p, .err ENOMEM)
        else
          let p2 : ProcVM :=
            { p with vmmap := updateLookup p.vmmap (curpage - 1)
                       (fun vma => { vma with end_ := newpage }),
                     brk := PN_TO_ADDR newpage }
          (p2, .ok p2.brk)

/-! ## Fork-time shadow interposition (`do_fork`, `vmmap_clone`)

Objects are heap-allocated and shared, so here they live in a store
indexed by object id; `next` models the allocator handing out fresh
addresses (every live id is below `next`), and `nextA` does the same for
vmarea identities. -/

structure ForkState where
  store : Nat → Option MMObjRec
  next : Nat
  nextA : Nat

/-- Point update of an object store. -/
def storeUpd (s : Nat → Option MMObjRec) (i : Nat) (o : MMObjRec) :
    Nat → Option MMObjRec :=
  fun j => if j = i then some o else s j

/-- `shadow_create` at the store level: allocate a fresh id holding a
freshly initialized shadow object. -/
def shadow_create_st (st : ForkState) : Nat × ForkState :=
  (st.next,
   { st with store := storeUpd st.store st.next shadow_create,
             next := st.next + 1 })

/-- Modelled from the spec: the `mmobj_bottom_obj` macro (`mm/mmobj.h`,
not in the source tree) — a shadow object's `mmo_un.mmo_bottom_obj`, a
non-shadow object itself. -/
def mmobj_bottom_obj (s : Nat → Option MMObjRec) (i : Nat) : Option Nat :=
  match s i with
  | some o => if o.shadowed.isSome then o.bottomObj else some i
  | none => none

/-- One iteration of `vmmap_clone`'s loop (`vmmap.c`): allocate a new
vmarea, `memcpy` the old one into it (same range, protection, flags,
offset and `vma_obj`), and increment the mmobj's reference count. -/
def clone_step (st : ForkState) (vma : VArea) : VArea × ForkState :=
  let st2 : ForkState :=
    match st.store vma.obj with
    | some o => { st with store := storeUpd st.store vma.obj
                            { o with refcount := o.refcount + 1 } }
    | none => st
  ({ vma with aid := st.nextA }, { st2 with nextA := st.nextA + 1 })

/-- `vmmap_clone` (`vmmap.c`): a new map whose areas are copies of the
old ones in list order, each sharing (and referencing) the old area's
mmobj. -/
def vmmap_clone : ForkState → List VArea → List VArea × ForkState
  | st, [] => ([], st)
  | st, vma :: rest =>
    let (vma2, st2) := clone_step st vma
    let (rest2, st3) := vmmap_clone st2 rest
    (vma2 :: rest2, st3)

/-- One iteration of `do_fork`'s lockstep loop over parent and child
areas (`proc.c`): for a `MAP_PRIVATE` pair, create two fresh shadow
objects, point both `mmo_un.mmo_bottom_obj` fields at
`mmobj_bottom_obj(parent_area's mmobj)` and both `mmo_shadowed` fields at
that mmobj, install one shadow as each area's `vma_obj`, and
`list_insert_tail` the child area into the bottom object's vmarea list.
Non-private pairs are untouched.  The `KASSERT(bottom && ...)` dead branch
passes the pair through. -/
def fork_shadow_step (st : ForkState) (vma vma2 : VArea) :
    VArea × VArea × ForkState :=
  if vma.flags &&& MAP_PRIVATE ≠ 0 then
    let (s1, st1) := shadow_create_st st
    let (s2, st2) := shadow_create_st st1
    match mmobj_bottom_obj st2.store vma.obj with
    | some b =>
      let sobj : MMObjRec :=
        { shadow_create with shadowed := some vma.obj, bottomObj := some b }
      let st3 : ForkState :=
        { st2 with store := storeUpd (storeUpd st2.store s1 sobj) s2 sobj }
      let st4 : ForkState :=
        match st3.store b with
        | some ob =>
          { st3 with store := storeUpd st3.store b
                       { ob with vmas := ob.vmas ++ [vma2.aid] } }
        | none => st3
      ({ vma with obj := s1 }, { vma2 with obj := s2 }, st4)
    | none => (vma, vma2, st2)
  else
    (vma, vma2, st)

/-- `do_fork`'s shadow loop (`proc.c`): walk the parent and child area
lists in lockstep, applying `fork_shadow_step` to each pair. -/
def fork_loop : ForkState → List VArea → List VArea →
    List VArea × List VArea × ForkState
  | st, vma :: ps, vma2 :: cs =>
    let (p2, c2, st2) := fork_shadow_step st vma vma2
    let (ps2, cs2, st3) := fork_loop st2 ps cs
    (p2 :: ps2, c2 :: cs2, st3)
  | st, ps, cs => (ps, cs, st)

/-- The address-space part of `do_fork` (`proc.c`): clone the parent's
vmmap, then interpose fresh shadows on every private pair.  Returns the
parent's areas, the child's areas, and the final object store. -/
def do_fork_vm (st : ForkState) (parent : List VArea) :
    List VArea × List VArea × ForkState :=
  let (child, st1) := vmmap_clone st parent
  fork_loop st1 parent child

/-- `ReachesBottom s i b`: in store `s`, following `mmo_shadowed` links
from object `i` reaches the non-shadow object `b`, and every shadow on
the way has its `mmo_un.mmo_bottom_obj` field pointing at `b` (the
shadow-chain invariant of the spec). -/
inductive ReachesBottom (s : Nat → Option MMObjRec) : Nat → Nat → Prop where
  | base (i : Nat) (o : MMObjRec) (hl : s i = some o) (hs : o.shadowed = none) :
      ReachesBottom s i i
  | step (i j b : Nat) (o : MMObjRec) (hl : s i = some o) (hs : o.shadowed = some j)
      (hb : o.bottomObj = some b) (hr : ReachesBottom s j b) :
      ReachesBottom s i b

/-- Store evolution during fork: every existing object survives with its
`mmo_shadowed` and `mmo_un.mmo_bottom_obj` fields intact and its vmarea
list only extended. -/
def storePreserves (s t : Nat → Option MMObjRec) : Prop :=
  ∀ i o, s i = some o → ∃ o2, t i = some o2 ∧ o2.shadowed = o.shadowed ∧
    o2.bottomObj = o.bottomObj ∧ ∀ x, x ∈ o.vmas → x ∈ o2.vmas

/-- Allocator soundness: every live object id is below `next`. -/
def domBelow (st : ForkState) : Prop :=
  ∀ i, (st.store i).isSome → i < st.next

/-! ## Invariants used as hypotheses -/

/-- The vmmap invariant as a running chain: starting from `low`, every
area is non-empty, starts at or after the previous bound, and the chain
ends at or before `high`.  `chainBetween LOPN HIPN l` is exactly "sorted
by start, pairwise disjoint, non-empty, inside the user range". -/
def chainBetween : Nat → Nat → List VArea → Prop
  | low, high, [] => low ≤ high
  | low, high, vma :: rest =>
    low ≤ vma.start ∧ vma.start < vma.end_ ∧ chainBetween vma.end_ high rest

def chainBetween.dec : (low high : Nat) → (l : List VArea) →
    Decidable (chainBetween low high l)
  | low, high, [] => inferInstanceAs (Decidable (low ≤ high))
  | low, high, vma :: rest =>
    letI := chainBetween.dec vma.end_ high rest
    inferInstanceAs (Decidable (_ ∧ _ ∧ _))

instance (low high : Nat) (l : List VArea) : Decidable (chainBetween low high l) :=
  chainBetween.dec low high l

/-- The same invariant read off a reversed area list (highest area
first), as `vmmap_find_range`'s HILO loop consumes it. -/
def chainRev : Nat → Nat → List VArea → Prop
  | low, high, [] => low ≤ high
  | low, high, vma :: rest =>
    vma.end_ ≤ high ∧ vma.start < vma.end_ ∧ chainRev low vma.start rest

/-- `validStart l npages t`: `[t, t+npages)` lies inside the user page
range and is disjoint from every area of `l` — the spec's notion of a
usable gap position. -/
def validStart (l : List VArea) (npages t : Nat) : Prop :=
  ADDR_TO_PN USER_MEM_LOW ≤ t ∧ t + npages ≤ ADDR_TO_PN USER_MEM_HIGH ∧
  ∀ a ∈ l, t + npages ≤ a.start ∨ a.end_ ≤ t

/-! ## Theorems -/

/-- Every area produced by the `vmmap_remove` case analysis lies entirely
below `lopage` or entirely at/above `highpage`. -/
theorem vmmap_remove_case_avoid (lo hi : Nat) (vma a : VArea)
    (h : a ∈ vmmap_remove_case lo hi vma) : a.end_ ≤ lo ∨ hi ≤ a.start := by
  unfold vmmap_remove_case at h
  split_ifs at h with h1 h2 h3 h4 h5 <;>
    simp only [List.mem_cons, List.mem_singleton, List.not_mem_nil, or_false] at h
  · rcases h with rfl | rfl
    · exact Or.inl (le_refl _)
    · exact Or.inr (le_refl _)
  · rcases h with rfl
    exact Or.inl (le_refl _)
  · rcases h with rfl
    exact Or.inl (by omega)
  · rcases h with rfl
    exact Or.inr (le_refl _)
  · rcases h with rfl
    omega

/-- C3: for every vmmap and every page `p` in the removed range
`[lopage, lopage+npages)`, after `vmmap_remove` the lookup of `p` returns
null, regardless of how the range overlapped the existing areas. -/
theorem vmmap_remove_lookup_none (l : List VArea) (lopage npages p : Nat)
    (h1 : lopage ≤ p) (h2 : p < lopage + npages) :
    vmmap_lookup (vmmap_remove l lopage npages) p = none := by
  rw [vmmap_lookup, List.find?_eq_none]
  intro a ha
  rw [vmmap_remove, List.mem_flatMap] at ha
  obtain ⟨vma, _, hcase⟩ := ha
  have havoid := vmmap_remove_case_avoid lopage (lopage + npages) vma a hcase
  simp only [decide_eq_true_eq]
  omega

/-- Witness for C3: removing `[12, 16)` from a map holding `[10, 20)`
leaves page 13 unmapped. -/
theorem vmmap_remove_lookup_none_witness :
    (12 ≤ 13 ∧ 13 < 12 + 4) ∧
    vmmap_lookup (vmmap_remove
      [{ start := 10, end_ := 20, off := 0, prot := 3, flags := MAP_PRIVATE,
         obj := 0, aid := 0 }] 12 4) 13 = none :=
  ⟨by decide,
   vmmap_remove_lookup_none
     [{ start := 10, end_ := 20, off := 0, prot := 3, flags := MAP_PRIVATE,
        obj := 0, aid := 0 }] 12 4 13 (by decide) (by decide)⟩

/-- C4 (code bug): `vmmap_map` with non-zero `lopage = 3`, `npages = 4`
on a map holding only `[5, 10)` skips the unmap — `vmmap_lookup(map, 3)`
is null, so `vmmap_remove` is never called even though `[3, 7)` overlaps
`[5, 10)` — and inserts the new area, leaving two overlapping areas: the
sorted/disjoint invariant is broken. -/
theorem vmmap_map_keeps_overlap :
    vmmap_map
      [{ start := 5, end_ := 10, off := 0, prot := 3, flags := MAP_PRIVATE,
         obj := 0, aid := 0 }] 3 4 3 MAP_PRIVATE 0 VMMAP_DIR_HILO 1 1 =
      some ([{ start := 3, end_ := 7, off := 0, prot := 3, flags := MAP_PRIVATE,
               obj := 1, aid := 1 },
             { start := 5, end_ := 10, off := 0, prot := 3, flags := MAP_PRIVATE,
               obj := 0, aid := 0 }],
            { start := 3, end_ := 7, off := 0, prot := 3, flags := MAP_PRIVATE,
              obj := 1, aid := 1 }) ∧
    ¬ sortedDisjoint
      [{ start := 3, end_ := 7, off := 0, prot := 3, flags := MAP_PRIVATE,
         obj := 1, aid := 1 },
       { start := 5, end_ := 10, off := 0, prot := 3, flags := MAP_PRIVATE,
         obj := 0, aid := 0 }] := by
  decide

/-- C5 (code bug): `anon_put` on an anonymous object with refcount 3 and
one resident page takes the non-reap branch and returns the object with
its reference count still 3 — the decrement promised by the function's
own documentation never happens. -/
theorem anon_put_misses_decrement :
    anon_put { shadowed := none, bottomObj := none, refcount := 3,
               respages := [{ pagenum := 0, pincount := 1 }], vmas := [] } =
      { obj := some { shadowed := none, bottomObj := none, refcount := 3,
                      respages := [{ pagenum := 0, pincount := 1 }], vmas := [] },
        freed := [], parentPuts := 0, asserts := true } := by
  decide

/-- C6 (code bug): a user read fault on a mapped area whose protection is
`PROT_NONE` is not killed: the source's `PROT_NONE & vma->vma_prot` test
is identically zero, so the handler falls through and installs a PTE
instead of terminating the process with `EFAULT`. -/
theorem handle_pagefault_prot_none_mapped :
    handle_pagefault
      [{ start := 0x400, end_ := 0x401, off := 0, prot := PROT_NONE,
         flags := MAP_PRIVATE, obj := 0, aid := 0 }]
      0x400000 FAULT_USER = .mapped false := by
  decide

/-- C7 (code bug): growing the break to `0x402000` succeeds, but calling
`do_brk` again with the returned break fails with `-ENOMEM`: the
`vmmap_lookup(map, newpage - 1)` guard finds the heap vmarea itself, so
`brk` with the current break is not a no-op. -/
theorem do_brk_not_idempotent :
    (do_brk { start_brk := 0x400000, brk := 0x401000,
              vmmap := [{ start := 0x400, end_ := 0x401, off := 0, prot := 3,
                          flags := MAP_PRIVATE, obj := 0, aid := 0 }] }
        (some 0x402000)).2 = .ok 0x402000 ∧
    do_brk (do_brk { start_brk := 0x400000, brk := 0x401000,
                     vmmap := [{ start := 0x400, end_ := 0x401, off := 0, prot := 3,
                                 flags := MAP_PRIVATE, obj := 0, aid := 0 }] }
              (some 0x402000)).1
        (some 0x402000) =
      ((do_brk { start_brk := 0x400000, brk := 0x401000,
                 vmmap := [{ start := 0x400, end_ := 0x401, off := 0, prot := 3,
                             flags := MAP_PRIVATE, obj := 0, aid := 0 }] }
           (some 0x402000)).1, .err ENOMEM) := by
  decide

/-- C8 (code bug): `do_brk` with `addr = 0xc0001000`, one page above
`USER_MEM_HIGH = 0xc0000000`, succeeds and sets the break beyond the user
range: the source compares the page number `newpage` (here `0xc0001`)
against the address constant `USER_MEM_HIGH`, so the upper-bound check
never fires. -/
theorem do_brk_exceeds_user_high :
    (do_brk { start_brk := 0x400000, brk := 0x401000,
              vmmap := [{ start := 0x400, end_ := 0x401, off := 0, prot := 3,
                          flags := MAP_PRIVATE, obj := 0, aid := 0 }] }
        (some 0xc0001000)).2 = .ok 0xc0001000 ∧
    (do_brk { start_brk := 0x400000, brk := 0x401000,
              vmmap := [{ start := 0x400, end_ := 0x401, off := 0, prot := 3,
                          flags := MAP_PRIVATE, obj := 0, aid := 0 }] }
        (some 0xc0001000)).1.brk = 0xc0001000 ∧
    USER_MEM_HIGH < 0xc0001000 := by
  decide

/-- C10: `shadow_create` and `anon_create` both return an object with
reference count exactly 1 and no resident pages, so the
`refcount ≥ resident pages` invariant holds at creation; a single `put`
with no resident pages reaps the object (for a shadow, once its
`mmo_shadowed` link is set, releasing exactly one parent reference), with
every `KASSERT` on the path holding. -/
theorem create_refcount_one_single_put_reaps :
    shadow_create.refcount = 1 ∧ shadow_create.respages = [] ∧
    anon_create.refcount = 1 ∧ anon_create.respages = [] ∧
    shadow_create.respages.length ≤ shadow_create.refcount ∧
    anon_create.respages.length ≤ anon_create.refcount ∧
    anon_put anon_create =
      { obj := none, freed := [], parentPuts := 0, asserts := true } ∧
    shadow_put { shadow_create with shadowed := some 0 } =
      { obj := none, freed := [], parentPuts := 1, asserts := true } := by
  decide

/-- C1: for every shadow chain and page index, the read walk of
`shadow_lookuppage` (`forwrite = 0`) is iterative over an arbitrary
finite chain and returns the resident page of the nearest shadow that has
it resident; when no shadow on the chain has the page resident it
delegates to the bottom non-shadow object. -/
theorem shadow_lookuppage_read_first_resident (o : MMObj) (p : Nat) :
    ((∀ r ∈ chainResidents o, r p = none) →
      shadow_lookuppage_read p o = bottomGet o p) ∧
    (∀ l1 r l2 f, chainResidents o = l1 ++ r :: l2 →
      (∀ q ∈ l1, q p = none) → r p = some f →
      shadow_lookuppage_read p o = f) := by
  induction o with
  | bottom g =>
    refine ⟨fun _ => rfl, fun l1 r l2 f hchain _ _ => ?_⟩
    have : ([] : List (Nat → Option Nat)) = l1 ++ r :: l2 := hchain
    exact absurd this.symm (List.append_ne_nil_of_right_ne_nil l1 (List.cons_ne_nil r l2))
  | shadow res par ih =>
    constructor
    · intro hall
      have hres : res p = none := hall res (by simp [chainResidents])
      have hrest : ∀ r ∈ chainResidents par, r p = none :=
        fun r hr => hall r (by simp [chainResidents, hr])
      simp only [shadow_lookuppage_read, hres, bottomGet]
      exact ih.1 hrest
    · intro l1 r l2 f hchain hl1 hr
      cases l1 with
      | nil =>
        simp only [chainResidents, List.nil_append, List.cons.injEq] at hchain
        obtain ⟨rfl, _⟩ := hchain
        simp only [shadow_lookuppage_read, hr]
      | cons q l1t =>
        simp only [chainResidents, List.cons_append, List.cons.injEq] at hchain
        obtain ⟨rfl, htail⟩ := hchain
        have hq : res p = none := hl1 res (List.mem_cons_self res l1t)
        simp only [shadow_lookuppage_read, hq]
        exact ih.2 l1t r l2 f htail (fun x hx => hl1 x (List.mem_cons_of_mem _ hx)) hr

/-- Witness for C1: on the chain shadow₁ → shadow₂ → bottom where only
shadow₂ has page 5 resident (as frame 99), the read walk returns frame
99. -/
theorem shadow_lookuppage_read_first_resident_witness :
    shadow_lookuppage_read 5
      (.shadow (fun _ => none)
        (.shadow (fun n => if n = 5 then some 99 else none)
          (.bottom fun n => n))) = 99 :=
  (shadow_lookuppage_read_first_resident
      (.shadow (fun _ => none)
        (.shadow (fun n => if n = 5 then some 99 else none)
          (.bottom fun n => n))) 5).2
    [fun _ => none] (fun n => if n = 5 then some 99 else none) [] 99 rfl
    (by intro q hq; simp only [List.mem_singleton] at hq; rw [hq]) rfl

theorem chainBetween_le : ∀ (l : List VArea) (low high : Nat),
    chainBetween low high l → low ≤ high := by
  intro l
  induction l with
  | nil => intro low high h; exact h
  | cons a rest ih =>
    intro low high h
    obtain ⟨h1, h2, h3⟩ := h
    have := ih a.end_ high h3
    omega

theorem chainBetween_mem : ∀ (l : List VArea) (low high : Nat),
    chainBetween low high l →
    ∀ a ∈ l, low ≤ a.start ∧ a.start < a.end_ ∧ a.end_ ≤ high := by
  intro l
  induction l with
  | nil => intro low high _ a ha; exact absurd ha (List.not_mem_nil a)
  | cons b rest ih =>
    intro low high h a ha
    obtain ⟨h1, h2, h3⟩ := h
    rcases List.mem_cons.mp ha with rfl | ha2
    · exact ⟨h1, h2, chainBetween_le rest a.end_ high h3⟩
    · have := ih b.end_ high h3 a ha2
      omega

theorem chainRev_le : ∀ (l : List VArea) (low high : Nat),
    chainRev low high l → low ≤ high := by
  intro l
  induction l with
  | nil => intro low high h; exact h
  | cons a rest ih =>
    intro low high h
    obtain ⟨h1, h2, h3⟩ := h
    have := ih low a.start h3
    omega

theorem chainRev_mem : ∀ (l : List VArea) (low high : Nat),
    chainRev low high l →
    ∀ a ∈ l, low ≤ a.start ∧ a.start < a.end_ ∧ a.end_ ≤ high := by
  intro l
  induction l with
  | nil => intro low high _ a ha; exact absurd ha (List.not_mem_nil a)
  | cons b rest ih =>
    intro low high h a ha
    obtain ⟨h1, h2, h3⟩ := h
    rcases List.mem_cons.mp ha with rfl | ha2
    · exact ⟨chainRev_le rest low a.start h3, h2, h1⟩
    · have := ih low b.start h3 a ha2
      omega

theorem chainRev_append_singleton : ∀ (xs : List VArea) (a : VArea) (low high : Nat),
    chainRev low high (xs ++ [a]) ↔
      chainRev a.end_ high xs ∧ a.start < a.end_ ∧ low ≤ a.start := by
  intro xs
  induction xs with
  | nil =>
    intro a low high
    show (a.end_ ≤ high ∧ a.start < a.end_ ∧ low ≤ a.start) ↔ _
    show _ ↔ (a.end_ ≤ high ∧ a.start < a.end_ ∧ low ≤ a.start)
    exact Iff.rfl
  | cons x xs ih =>
    intro a low high
    show (x.end_ ≤ high ∧ x.start < x.end_ ∧ chainRev low x.start (xs ++ [a])) ↔
      (x.end_ ≤ high ∧ x.start < x.end_ ∧ chainRev a.end_ x.start xs) ∧
        a.start < a.end_ ∧ low ≤ a.start
    rw [ih a low x.start]
    tauto

/-- The forward chain invariant, reversed, gives the reverse-iteration
invariant the HILO loop needs. -/
theorem chainBetween_reverse : ∀ (l : List VArea) (low lo0 high : Nat),
    chainBetween low high l → lo0 ≤ low → chainRev lo0 high l.reverse := by
  intro l
  induction l with
  | nil =>
    intro low lo0 high h hle
    have hlh : low ≤ high := h
    show lo0 ≤ high
    omega
  | cons a rest ih =>
    intro low lo0 high h hle
    obtain ⟨h1, h2, h3⟩ := h
    rw [List.reverse_cons, chainRev_append_singleton]
    exact ⟨ih a.end_ a.end_ high h3 (le_refl _), h2, by omega⟩

/-- Soundness and minimality of the LOHI loop: a returned start is the
least valid placement at or above `low`; `none` means no placement at or
above `low` exists. -/
theorem find_range_lohi_some (npages : Nat) :
    ∀ (l : List VArea) (low s : Nat),
    chainBetween low (ADDR_TO_PN USER_MEM_HIGH) l →
    find_range_lohi npages low l = some s →
    low ≤ s ∧ s + npages ≤ ADDR_TO_PN USER_MEM_HIGH ∧
    (∀ a ∈ l, s + npages ≤ a.start ∨ a.end_ ≤ s) ∧
    (∀ t, low ≤ t → t + npages ≤ ADDR_TO_PN USER_MEM_HIGH →
      (∀ a ∈ l, t + npages ≤ a.start ∨ a.end_ ≤ t) → s ≤ t) := by
  intro l
  induction l with
  | nil =>
    intro low s hinv heq
    have hlh : low ≤ ADDR_TO_PN USER_MEM_HIGH := hinv
    simp only [find_range_lohi] at heq
    split_ifs at heq with hfit
    · cases heq
      refine ⟨le_refl _, by omega, ?_, ?_⟩
      · intro a ha; exact absurd ha (List.not_mem_nil a)
      · intro t ht _ _; exact ht
  | cons a rest ih =>
    intro low s hinv heq
    obtain ⟨h1, h2, h3⟩ := hinv
    have hahigh : a.end_ ≤ ADDR_TO_PN USER_MEM_HIGH := chainBetween_le _ _ _ h3
    simp only [find_range_lohi] at heq
    split_ifs at heq with hfit
    · cases heq
      refine ⟨le_refl _, by omega, ?_, ?_⟩
      · intro x hx
        rcases List.mem_cons.mp hx with rfl | hx2
        · left; omega
        · have := chainBetween_mem rest a.end_ _ h3 x hx2
          left; omega
      · intro t ht _ _; exact ht
    · obtain ⟨hs1, hs2, hs3, hs4⟩ := ih a.end_ s h3 heq
      have htrans : ∀ t, low ≤ t → (t + npages ≤ a.start ∨ a.end_ ≤ t) → a.end_ ≤ t := by
        intro t ht hdis
        rcases hdis with hdis | hdis
        · omega
        · exact hdis
      refine ⟨by omega, hs2, ?_, ?_⟩
      · intro x hx
        rcases List.mem_cons.mp hx with rfl | hx2
        · right; omega
        · exact hs3 x hx2
      · intro t ht hbound hdis
        have hta : a.end_ ≤ t := htrans t ht (hdis a (List.mem_cons_self a rest))
        exact hs4 t hta hbound (fun x hx => hdis x (List.mem_cons_of_mem a hx))

/-- Completeness of the LOHI loop: `none` means no valid placement at or
above `low` exists. -/
theorem find_range_lohi_none (npages : Nat) :
    ∀ (l : List VArea) (low : Nat),
    chainBetween low (ADDR_TO_PN USER_MEM_HIGH) l →
    find_range_lohi npages low l = none →
    ∀ t, low ≤ t → t + npages ≤ ADDR_TO_PN USER_MEM_HIGH →
      (∀ a ∈ l, t + npages ≤ a.start ∨ a.end_ ≤ t) → False := by
  intro l
  induction l with
  | nil =>
    intro low hinv heq t ht hbound _
    simp only [find_range_lohi] at heq
    split_ifs at heq with hfit
    omega
  | cons a rest ih =>
    intro low hinv heq t ht hbound hdis
    obtain ⟨h1, h2, h3⟩ := hinv
    simp only [find_range_lohi] at heq
    split_ifs at heq with hfit
    have hta : a.end_ ≤ t := by
      rcases hdis a (List.mem_cons_self a rest) with hd | hd
      · omega
      · exact hd
    exact ih a.end_ h3 heq t hta hbound (fun x hx => hdis x (List.mem_cons_of_mem a hx))

/-- Soundness and maximality of the HILO loop (on the reversed list): a
returned start is the greatest valid placement fitting below `high`. -/
theorem find_range_hilo_some (npages : Nat) :
    ∀ (l : List VArea) (high s : Nat),
    chainRev (ADDR_TO_PN USER_MEM_LOW) high l →
    find_range_hilo npages high l = some s →
    ADDR_TO_PN USER_MEM_LOW ≤ s ∧ s + npages ≤ high ∧
    (∀ a ∈ l, s + npages ≤ a.start ∨ a.end_ ≤ s) ∧
    (∀ t, ADDR_TO_PN USER_MEM_LOW ≤ t → t + npages ≤ high →
      (∀ a ∈ l, t + npages ≤ a.start ∨ a.end_ ≤ t) → t ≤ s) := by
  intro l
  induction l with
  | nil =>
    intro high s hinv heq
    have hlh : ADDR_TO_PN USER_MEM_LOW ≤ high := hinv
    simp only [find_range_hilo] at heq
    split_ifs at heq with hfit
    · cases heq
      refine ⟨by omega, by omega, ?_, ?_⟩
      · intro a ha; exact absurd ha (List.not_mem_nil a)
      · intro t _ hbound _; omega
  | cons a rest ih =>
    intro high s hinv heq
    obtain ⟨h1, h2, h3⟩ := hinv
    have halow : ADDR_TO_PN USER_MEM_LOW ≤ a.start := chainRev_le _ _ _ h3
    simp only [find_range_hilo] at heq
    split_ifs at heq with hfit
    · cases heq
      refine ⟨by omega, by omega, ?_, ?_⟩
      · intro x hx
        rcases List.mem_cons.mp hx with rfl | hx2
        · right; omega
        · have := chainRev_mem rest _ a.start h3 x hx2
          right; omega
      · intro t _ hbound _; omega
    · obtain ⟨hs1, hs2, hs3, hs4⟩ := ih a.start s h3 heq
      have htrans : ∀ t, t + npages ≤ high →
          (t + npages ≤ a.start ∨ a.end_ ≤ t) → t + npages ≤ a.start := by
        intro t hb hdis
        rcases hdis with hdis | hdis
        · exact hdis
        · omega
      refine ⟨hs1, by omega, ?_, ?_⟩
      · intro x hx
        rcases List.mem_cons.mp hx with rfl | hx2
        · left; omega
        · exact hs3 x hx2
      · intro t htl hbound hdis
        have hta : t + npages ≤ a.start :=
          htrans t hbound (hdis a (List.mem_cons_self a rest))
        exact hs4 t htl hta (fun x hx => hdis x (List.mem_cons_of_mem a hx))

/-- Completeness of the HILO loop. -/
theorem find_range_hilo_none (npages : Nat) :
    ∀ (l : List VArea) (high : Nat),
    chainRev (ADDR_TO_PN USER_MEM_LOW) high l →
    find_range_hilo npages high l = none →
    ∀ t, ADDR_TO_PN USER_MEM_LOW ≤ t → t + npages ≤ high →
      (∀ a ∈ l, t + npages ≤ a.start ∨ a.end_ ≤ t) → False := by
  intro l
  induction l with
  | nil =>
    intro high hinv heq t htl hbound _
    simp only [find_range_hilo] at heq
    split_ifs at heq with hfit
    omega
  | cons a rest ih =>
    intro high hinv heq t htl hbound hdis
    obtain ⟨h1, h2, h3⟩ := hinv
    simp only [find_range_hilo] at heq
    split_ifs at heq with hfit
    have hta : t + npages ≤ a.start := by
      rcases hdis a (List.mem_cons_self a rest) with hd | hd
      · exact hd
      · omega
    exact ih a.start h3 heq t htl hta (fun x hx => hdis x (List.mem_cons_of_mem a hx))

/-- C9: under the vmmap invariant, `vmmap_find_range` (which only reads
the map) returns `-1` exactly when no `npages`-page gap inside
`[USER_MEM_LOW, USER_MEM_HIGH)` disjoint from every area exists;
otherwise it returns a valid start, the lowest such start for
`VMMAP_DIR_LOHI` and the highest (top of the highest gap) for
`VMMAP_DIR_HILO`. -/
theorem vmmap_find_range_spec (l : List VArea) (npages : Nat)
    (hinv : chainBetween (ADDR_TO_PN USER_MEM_LOW) (ADDR_TO_PN USER_MEM_HIGH) l)
    (hnp : 0 < npages) :
    (vmmap_find_range l npages VMMAP_DIR_LOHI = -1 →
       ∀ t, ¬ validStart l npages t) ∧
    (∀ s : Nat, vmmap_find_range l npages VMMAP_DIR_LOHI = Int.ofNat s →
       validStart l npages s ∧ ∀ t, validStart l npages t → s ≤ t) ∧
    (vmmap_find_range l npages VMMAP_DIR_HILO = -1 →
       ∀ t, ¬ validStart l npages t) ∧
    (∀ s : Nat, vmmap_find_range l npages VMMAP_DIR_HILO = Int.ofNat s →
       validStart l npages s ∧ ∀ t, validStart l npages t → t ≤ s) := by
  have hrev : chainRev (ADDR_TO_PN USER_MEM_LOW) (ADDR_TO_PN USER_MEM_HIGH) l.reverse :=
    chainBetween_reverse l (ADDR_TO_PN USER_MEM_LOW) (ADDR_TO_PN USER_MEM_LOW)
      (ADDR_TO_PN USER_MEM_HIGH) hinv (le_refl _)
  have hlohi : vmmap_find_range l npages VMMAP_DIR_LOHI =
      (match find_range_lohi npages (ADDR_TO_PN USER_MEM_LOW) l with
       | some s => Int.ofNat s
       | none => -1) := by
    rw [vmmap_find_range, if_pos rfl]
  have hhilo : vmmap_find_range l npages VMMAP_DIR_HILO =
      (match find_range_hilo npages (ADDR_TO_PN USER_MEM_HIGH) l.reverse with
       | some s => Int.ofNat s
       | none => -1) := by
    rw [vmmap_find_range, if_neg (by decide)]
  refine ⟨?_, ?_, ?_, ?_⟩
  · intro heq t hval
    obtain ⟨hv1, hv2, hv3⟩ := hval
    rcases hfr : find_range_lohi npages (ADDR_TO_PN USER_MEM_LOW) l with _ | s
    · exact find_range_lohi_none npages l _ hinv hfr t hv1 hv2 hv3
    · rw [hlohi, hfr] at heq
      have heq2 : Int.ofNat s = -1 := heq
      rw [Int.ofNat_eq_coe] at heq2
      omega
  · intro s heq
    rcases hfr : find_range_lohi npages (ADDR_TO_PN USER_MEM_LOW) l with _ | s2
    · rw [hlohi, hfr] at heq
      have heq2 : (-1 : Int) = Int.ofNat s := heq
      rw [Int.ofNat_eq_coe] at heq2
      omega
    · rw [hlohi, hfr] at heq
      have heq2 : Int.ofNat s2 = Int.ofNat s := heq
      have hs : s2 = s := Int.ofNat.inj heq2
      subst hs
      obtain ⟨ha, hb, hc, hd⟩ := find_range_lohi_some npages l _ s2 hinv hfr
      exact ⟨⟨ha, hb, hc⟩, fun t ⟨ht1, ht2, ht3⟩ => hd t ht1 ht2 ht3⟩
  · intro heq t hval
    obtain ⟨hv1, hv2, hv3⟩ := hval
    rcases hfr : find_range_hilo npages (ADDR_TO_PN USER_MEM_HIGH) l.reverse with _ | s
    · refine find_range_hilo_none npages l.reverse _ hrev hfr t hv1 hv2 ?_
      intro a ha
      exact hv3 a (List.mem_reverse.mp ha)
    · rw [hhilo, hfr] at heq
      have heq2 : Int.ofNat s = -1 := heq
      rw [Int.ofNat_eq_coe] at heq2
      omega
  · intro s heq
    rcases hfr : find_range_hilo npages (ADDR_TO_PN USER_MEM_HIGH) l.reverse with _ | s2
    · rw [hhilo, hfr] at heq
      have heq2 : (-1 : Int) = Int.ofNat s := heq
      rw [Int.ofNat_eq_coe] at heq2
      omega
    · rw [hhilo, hfr] at heq
      have heq2 : Int.ofNat s2 = Int.ofNat s := heq
      have hs : s2 = s := Int.ofNat.inj heq2
      subst hs
      obtain ⟨ha, hb, hc, hd⟩ := find_range_hilo_some npages l.reverse _ s2 hrev hfr
      refine ⟨⟨ha, hb, fun a haml => hc a (List.mem_reverse.mpr haml)⟩, ?_⟩
      intro t ⟨ht1, ht2, ht3⟩
      exact hd t ht1 ht2 (fun a ha => ht3 a (List.mem_reverse.mp ha))

/-- Witness for C9: on a map holding only `[0x500, 0x600)`, a 2-page
range search is characterised by the theorem at a concrete input. -/
theorem vmmap_find_range_spec_witness :
    ((vmmap_find_range
        [{ start := 0x500, end_ := 0x600, off := 0, prot := 3, flags := MAP_PRIVATE,
           obj := 0, aid := 0 }] 2 VMMAP_DIR_LOHI = -1 →
        ∀ t, ¬ validStart
          [{ start := 0x500, end_ := 0x600, off := 0, prot := 3, flags := MAP_PRIVATE,
             obj := 0, aid := 0 }] 2 t) ∧
     (∀ s : Nat, vmmap_find_range
        [{ start := 0x500, end_ := 0x600, off := 0, prot := 3, flags := MAP_PRIVATE,
           obj := 0, aid := 0 }] 2 VMMAP_DIR_LOHI = Int.ofNat s →
        validStart
          [{ start := 0x500, end_ := 0x600, off := 0, prot := 3, flags := MAP_PRIVATE,
             obj := 0, aid := 0 }] 2 s ∧
        ∀ t, validStart
          [{ start := 0x500, end_ := 0x600, off := 0, prot := 3, flags := MAP_PRIVATE,
             obj := 0, aid := 0 }] 2 t → s ≤ t) ∧
     (vmmap_find_range
        [{ start := 0x500, end_ := 0x600, off := 0, prot := 3, flags := MAP_PRIVATE,
           obj := 0, aid := 0 }] 2 VMMAP_DIR_HILO = -1 →
        ∀ t, ¬ validStart
          [{ start := 0x500, end_ := 0x600, off := 0, prot := 3, flags := MAP_PRIVATE,
             obj := 0, aid := 0 }] 2 t) ∧
     (∀ s : Nat, vmmap_find_range
        [{ start := 0x500, end_ := 0x600, off := 0, prot := 3, flags := MAP_PRIVATE,
           obj := 0, aid := 0 }] 2 VMMAP_DIR_HILO = Int.ofNat s →
        validStart
          [{ start := 0x500, end_ := 0x600, off := 0, prot := 3, flags := MAP_PRIVATE,
             obj := 0, aid := 0 }] 2 s ∧
        ∀ t, validStart
          [{ start := 0x500, end_ := 0x600, off := 0, prot := 3, flags := MAP_PRIVATE,
             obj := 0, aid := 0 }] 2 t → t ≤ s)) :=
  vmmap_find_range_spec
    [{ start := 0x500, end_ := 0x600, off := 0, prot := 3, flags := MAP_PRIVATE,
       obj := 0, aid := 0 }] 2 (by decide) (by decide)

theorem storePreserves_refl (s : Nat → Option MMObjRec) : storePreserves s s :=
  fun i o h => ⟨o, h, rfl, rfl, fun _ hx => hx⟩

theorem storePreserves_trans (s t u : Nat → Option MMObjRec)
    (h1 : storePreserves s t) (h2 : storePreserves t u) : storePreserves s u := by
  intro i o h
  obtain ⟨o2, ho2, ha2, hb2, hv2⟩ := h1 i o h
  obtain ⟨o3, ho3, ha3, hb3, hv3⟩ := h2 i o2 ho2
  exact ⟨o3, ho3, ha3.trans ha2, hb3.trans hb2, fun x hx => hv3 x (hv2 x hx)⟩

theorem reachesBottom_dom (s : Nat → Option MMObjRec) (i b : Nat)
    (h : ReachesBottom s i b) : ∃ o, s i = some o := by
  cases h with
  | base i o hl hs => exact ⟨o, hl⟩
  | step i j b o hl hs hb hr => exact ⟨o, hl⟩

theorem reachesBottom_bottom (s : Nat → Option MMObjRec) (i b : Nat)
    (h : ReachesBottom s i b) : ∃ ob, s b = some ob ∧ ob.shadowed = none := by
  induction h with
  | base i o hl hs => exact ⟨o, hl, hs⟩
  | step i j b o hl hs hb hr ih => exact ih

/-- The shadow-chain invariant makes the `mmobj_bottom_obj` macro compute
the true bottom of the chain. -/
theorem reachesBottom_bottom_obj (s : Nat → Option MMObjRec) (i b : Nat)
    (h : ReachesBottom s i b) : mmobj_bottom_obj s i = some b := by
  cases h with
  | base i o hl hs => simp [mmobj_bottom_obj, hl, hs]
  | step i j b o hl hs hb hr => simp [mmobj_bottom_obj, hl, hs, hb]

theorem reachesBottom_mono (s t : Nat → Option MMObjRec)
    (hpres : storePreserves s t) (i b : Nat) (h : ReachesBottom s i b) :
    ReachesBottom t i b := by
  induction h with
  | base i o hl hs =>
    obtain ⟨o2, hl2, hsh2, _, _⟩ := hpres i o hl
    exact .base i o2 hl2 (by rw [hsh2, hs])
  | step i j b o hl hs hb hr ih =>
    obtain ⟨o2, hl2, hsh2, hb2, _⟩ := hpres i o hl
    exact .step i j b o2 hl2 (by rw [hsh2, hs]) (by rw [hb2, hb]) ih

/-- What `fork_shadow_step` does to a private pair, under the allocator
and shadow-chain hypotheses: the parent area gets the first fresh shadow,
the child area the second, both shadows point `shadowed` at the parent's
old mmobj and `bottomObj` at the chain's bottom `b`, and the child's aid
is appended to `b`'s vmarea list. -/
theorem fork_shadow_step_private_spec (st : ForkState) (vma vma2 : VArea) (b : Nat)
    (hdom : domBelow st)
    (hpriv : vma.flags &&& MAP_PRIVATE ≠ 0)
    (hreach : ReachesBottom st.store vma.obj b) :
    ∃ ob,
      st.store b = some ob ∧ b < st.next ∧
      (fork_shadow_step st vma vma2).1 = { vma with obj := st.next } ∧
      (fork_shadow_step st vma vma2).2.1 = { vma2 with obj := st.next + 1 } ∧
      (fork_shadow_step st vma vma2).2.2.next = st.next + 2 ∧
      (fork_shadow_step st vma vma2).2.2.nextA = st.nextA ∧
      (fork_shadow_step st vma vma2).2.2.store st.next =
        some { shadow_create with shadowed := some vma.obj, bottomObj := some b } ∧
      (fork_shadow_step st vma vma2).2.2.store (st.next + 1) =
        some { shadow_create with shadowed := some vma.obj, bottomObj := some b } ∧
      (fork_shadow_step st vma vma2).2.2.store b =
        some { ob with vmas := ob.vmas ++ [vma2.aid] } ∧
      (∀ id, id ≠ st.next → id ≠ st.next + 1 → id ≠ b →
        (fork_shadow_step st vma vma2).2.2.store id = st.store id) := by
  obtain ⟨oi, hoi⟩ := reachesBottom_dom st.store vma.obj b hreach
  obtain ⟨ob, hob, _⟩ := reachesBottom_bottom st.store vma.obj b hreach
  have hvdom : vma.obj < st.next := hdom vma.obj (by rw [hoi]; rfl)
  have hbdom : b < st.next := hdom b (by rw [hob]; rfl)
  have hst2 : (storeUpd (storeUpd st.store st.next shadow_create)
      (st.next + 1) shadow_create) vma.obj = st.store vma.obj := by
    unfold storeUpd
    rw [if_neg (by omega), if_neg (by omega)]
  have hbot2 : mmobj_bottom_obj (storeUpd (storeUpd st.store st.next shadow_create)
      (st.next + 1) shadow_create) vma.obj = some b := by
    unfold mmobj_bottom_obj
    rw [hst2]
    have := reachesBottom_bottom_obj st.store vma.obj b hreach
    unfold mmobj_bottom_obj at this
    exact this
  have hst3b : (storeUpd (storeUpd (storeUpd (storeUpd st.store st.next shadow_create)
      (st.next + 1) shadow_create) st.next
      { shadow_create with shadowed := some vma.obj, bottomObj := some b })
      (st.next + 1)
      { shadow_create with shadowed := some vma.obj, bottomObj := some b }) b =
      some ob := by
    unfold storeUpd
    rw [if_neg (by omega), if_neg (by omega), if_neg (by omega), if_neg (by omega)]
    exact hob
  refine ⟨ob, hob, hbdom, ?_⟩
  unfold fork_shadow_step
  rw [if_pos hpriv]
  simp only [shadow_create_st, hbot2, hst3b]
  refine ⟨trivial, trivial, trivial, trivial, ?_, ?_, ?_, ?_⟩
  · unfold storeUpd
    rw [if_neg (by omega), if_neg (by omega), if_pos rfl]
  · unfold storeUpd
    rw [if_neg (by omega), if_pos rfl]
  · unfold storeUpd
    rw [if_pos rfl]
  · intro id h1 h2 h3
    unfold storeUpd
    rw [if_neg h3, if_neg h2, if_neg h1, if_neg h2, if_neg h1]

theorem storeUpd_eq (s : Nat → Option MMObjRec) (i : Nat) (o : MMObjRec) :
    storeUpd s i o i = some o := by
  unfold storeUpd
  rw [if_pos rfl]

theorem storeUpd_ne (s : Nat → Option MMObjRec) (i : Nat) (o : MMObjRec)
    (j : Nat) (h : j ≠ i) : storeUpd s i o j = s j := by
  unfold storeUpd
  rw [if_neg h]

/-- `fork_shadow_step` preserves existing objects (their `shadowed` and
bottom links intact, vmarea lists only growing), keeps the allocator
sound, and does not shrink `next` or move `nextA`. -/
theorem fork_shadow_step_state (st : ForkState) (vma vma2 : VArea)
    (hdom : domBelow st) :
    storePreserves st.store (fork_shadow_step st vma vma2).2.2.store ∧
    domBelow (fork_shadow_step st vma vma2).2.2 ∧
    st.next ≤ (fork_shadow_step st vma vma2).2.2.next ∧
    (fork_shadow_step st vma vma2).2.2.nextA = st.nextA := by
  by_cases hpriv : vma.flags &&& MAP_PRIVATE ≠ 0
  · rcases hbot : mmobj_bottom_obj (storeUpd (storeUpd st.store st.next shadow_create)
        (st.next + 1) shadow_create) vma.obj with _ | b
    · have heq : fork_shadow_step st vma vma2 =
          (vma, vma2,
           { store := storeUpd (storeUpd st.store st.next shadow_create)
               (st.next + 1) shadow_create,
             next := st.next + 1 + 1, nextA := st.nextA }) := by
        unfold fork_shadow_step
        rw [if_pos hpriv]
        simp only [shadow_create_st, hbot]
      rw [heq]
      refine ⟨?_, ?_, by show st.next ≤ st.next + 1 + 1; omega, rfl⟩
      · intro id o h
        have hid : id < st.next := hdom id (by rw [h]; rfl)
        refine ⟨o, ?_, rfl, rfl, fun _ hx => hx⟩
        show storeUpd (storeUpd st.store st.next shadow_create)
          (st.next + 1) shadow_create id = some o
        rw [storeUpd_ne _ _ _ _ (by omega), storeUpd_ne _ _ _ _ (by omega)]
        exact h
      · intro id h
        show id < st.next + 1 + 1
        have h2 : (storeUpd (storeUpd st.store st.next shadow_create)
            (st.next + 1) shadow_create id).isSome = true := h
        by_cases hc1 : id = st.next + 1
        · omega
        · rw [storeUpd_ne _ _ _ _ hc1] at h2
          by_cases hc2 : id = st.next
          · omega
          · rw [storeUpd_ne _ _ _ _ hc2] at h2
            have := hdom id h2
            omega
    · rcases hsb : (storeUpd (storeUpd (storeUpd (storeUpd st.store st.next shadow_create)
          (st.next + 1) shadow_create) st.next
          { shadow_create with shadowed := some vma.obj, bottomObj := some b })
          (st.next + 1)
          { shadow_create with shadowed := some vma.obj, bottomObj := some b }) b
          with _ | ob
      · have heq : fork_shadow_step st vma vma2 =
            ({ vma with obj := st.next }, { vma2 with obj := st.next + 1 },
             { store := storeUpd (storeUpd (storeUpd (storeUpd st.store st.next
                   shadow_create) (st.next + 1) shadow_create) st.next
                 { shadow_create with shadowed := some vma.obj, bottomObj := some b })
                 (st.next + 1)
                 { shadow_create with shadowed := some vma.obj, bottomObj := some b },
               next := st.next + 1 + 1, nextA := st.nextA }) := by
          unfold fork_shadow_step
          rw [if_pos hpriv]
          simp only [shadow_create_st, hbot, hsb]
        rw [heq]
        refine ⟨?_, ?_, by show st.next ≤ st.next + 1 + 1; omega, rfl⟩
        · intro id o h
          have hid : id < st.next := hdom id (by rw [h]; rfl)
          refine ⟨o, ?_, rfl, rfl, fun _ hx => hx⟩
          show storeUpd (storeUpd (storeUpd (storeUpd st.store st.next shadow_create)
            (st.next + 1) shadow_create) st.next
            { shadow_create with shadowed := some vma.obj, bottomObj := some b })
            (st.next + 1)
            { shadow_create with shadowed := some vma.obj, bottomObj := some b } id = some o
          rw [storeUpd_ne _ _ _ _ (by omega), storeUpd_ne _ _ _ _ (by omega),
              storeUpd_ne _ _ _ _ (by omega), storeUpd_ne _ _ _ _ (by omega)]
          exact h
        · intro id h
          show id < st.next + 1 + 1
          have h2 : ((storeUpd (storeUpd (storeUpd (storeUpd st.store st.next
              shadow_create) (st.next + 1) shadow_create) st.next
              { shadow_create with shadowed := some vma.obj, bottomObj := some b })
              (st.next + 1)
              { shadow_create with shadowed := some vma.obj, bottomObj := some b }) id).isSome
              = true := h
          by_cases hc1 : id = st.next + 1
          · omega
          · rw [storeUpd_ne _ _ _ _ hc1] at h2
            by_cases hc2 : id = st.next
            · omega
            · rw [storeUpd_ne _ _ _ _ hc2, storeUpd_ne _ _ _ _ hc1,
                  storeUpd_ne _ _ _ _ hc2] at h2
              have := hdom id h2
              omega
      · have heq : fork_shadow_step st vma vma2 =
            ({ vma with obj := st.next }, { vma2 with obj := st.next + 1 },
             { store := storeUpd (storeUpd (storeUpd (storeUpd (storeUpd st.store st.next
                   shadow_create) (st.next + 1) shadow_create) st.next
                 { shadow_create with shadowed := some vma.obj, bottomObj := some b })
                 (st.next + 1)
                 { shadow_create with shadowed := some vma.obj, bottomObj := some b })
                 b { ob with vmas := ob.vmas ++ [vma2.aid] },
               next := st.next + 1 + 1, nextA := st.nextA }) := by
          unfold fork_shadow_step
          rw [if_pos hpriv]
          simp only [shadow_create_st, hbot, hsb]
        rw [heq]
        have hbbound : b < st.next + 2 := by
          by_cases hb1 : b = st.next + 1
          · omega
          · by_cases hb2 : b = st.next
            · omega
            · rw [storeUpd_ne _ _ _ _ hb1, storeUpd_ne _ _ _ _ hb2,
                  storeUpd_ne _ _ _ _ hb1, storeUpd_ne _ _ _ _ hb2] at hsb
              have := hdom b (by rw [hsb]; rfl)
              omega
        refine ⟨?_, ?_, by show st.next ≤ st.next + 1 + 1; omega, rfl⟩
        · intro id o h
          have hid : id < st.next := hdom id (by rw [h]; rfl)
          by_cases hidb : id = b
          · subst hidb
            have hsb2 := hsb
            rw [storeUpd_ne _ _ _ _ (by omega), storeUpd_ne _ _ _ _ (by omega),
                storeUpd_ne _ _ _ _ (by omega), storeUpd_ne _ _ _ _ (by omega)] at hsb2
            have hobo : ob = o := by
              rw [h] at hsb2
              exact (Option.some.inj hsb2).symm
            subst hobo
            refine ⟨{ ob with vmas := ob.vmas ++ [vma2.aid] }, ?_, rfl, rfl, ?_⟩
            · show storeUpd _ id _ id = _
              rw [storeUpd_eq]
            · intro x hx
              simp only [List.mem_append]
              exact Or.inl hx
          · refine ⟨o, ?_, rfl, rfl, fun _ hx => hx⟩
            show storeUpd _ b _ id = some o
            rw [storeUpd_ne _ _ _ _ hidb, storeUpd_ne _ _ _ _ (by omega),
                storeUpd_ne _ _ _ _ (by omega), storeUpd_ne _ _ _ _ (by omega),
                storeUpd_ne _ _ _ _ (by omega)]
            exact h
        · intro id h
          show id < st.next + 1 + 1
          have h2 : (storeUpd (storeUpd (storeUpd (storeUpd (storeUpd st.store st.next
              shadow_create) (st.next + 1) shadow_create) st.next
              { shadow_create with shadowed := some vma.obj, bottomObj := some b })
              (st.next + 1)
              { shadow_create with shadowed := some vma.obj, bottomObj := some b })
              b { ob with vmas := ob.vmas ++ [vma2.aid] } id).isSome = true := h
          by_cases hidb : id = b
          · omega
          · rw [storeUpd_ne _ _ _ _ hidb] at h2
            by_cases hc1 : id = st.next + 1
            · omega
            · rw [storeUpd_ne _ _ _ _ hc1] at h2
              by_cases hc2 : id = st.next
              · omega
              · rw [storeUpd_ne _ _ _ _ hc2, storeUpd_ne _ _ _ _ hc1,
                    storeUpd_ne _ _ _ _ hc2] at h2
                have := hdom id h2
                omega
  · have heq : fork_shadow_step st vma vma2 = (vma, vma2, st) := by
      unfold fork_shadow_step
      rw [if_neg hpriv]
    rw [heq]
    exact ⟨storePreserves_refl _, hdom, le_refl _, rfl⟩

theorem fork_loop_cons (st : ForkState) (vma vma2 : VArea) (ps cs : List VArea) :
    fork_loop st (vma :: ps) (vma2 :: cs) =
      ((fork_shadow_step st vma vma2).1 ::
         (fork_loop (fork_shadow_step st vma vma2).2.2 ps cs).1,
       (fork_shadow_step st vma vma2).2.1 ::
         (fork_loop (fork_shadow_step st vma vma2).2.2 ps cs).2.1,
       (fork_loop (fork_shadow_step st vma vma2).2.2 ps cs).2.2) := rfl

theorem fork_loop_state : ∀ (ps cs : List VArea) (st : ForkState), domBelow st →
    storePreserves st.store (fork_loop st ps cs).2.2.store ∧
    domBelow (fork_loop st ps cs).2.2 ∧
    st.next ≤ (fork_loop st ps cs).2.2.next := by
  intro ps
  induction ps with
  | nil =>
    intro cs st hdom
    exact ⟨storePreserves_refl _, hdom, le_refl _⟩
  | cons vma ps ih =>
    intro cs st hdom
    cases cs with
    | nil => exact ⟨storePreserves_refl _, hdom, le_refl _⟩
    | cons vma2 cs =>
      obtain ⟨hpres1, hdom1, hnext1, _⟩ := fork_shadow_step_state st vma vma2 hdom
      obtain ⟨hpres2, hdom2, hnext2⟩ := ih cs (fork_shadow_step st vma vma2).2.2 hdom1
      rw [fork_loop_cons]
      refine ⟨storePreserves_trans _ _ _ hpres1 hpres2, hdom2, ?_⟩
      show st.next ≤ (fork_loop (fork_shadow_step st vma vma2).2.2 ps cs).2.2.next
      omega

/-- The fork loop, at every private index pair: fresh distinct shadows
installed on parent and child, both pointing `shadowed` at the parent's
old mmobj and `bottomObj` at the chain bottom, and the child area
enlisted in the bottom object's vmarea list. -/
theorem fork_loop_private_spec : ∀ (ps cs : List VArea) (st : ForkState)
    (i : Nat) (vma vma2 : VArea) (b : Nat),
    domBelow st →
    ps.get? i = some vma → cs.get? i = some vma2 →
    vma.flags &&& MAP_PRIVATE ≠ 0 →
    ReachesBottom st.store vma.obj b →
    ∃ pobj cobj o1 o2 ob,
      (fork_loop st ps cs).1.get? i = some { vma with obj := pobj } ∧
      (fork_loop st ps cs).2.1.get? i = some { vma2 with obj := cobj } ∧
      pobj ≠ cobj ∧ st.next ≤ pobj ∧ st.next ≤ cobj ∧
      (fork_loop st ps cs).2.2.store pobj = some o1 ∧
      o1.shadowed = some vma.obj ∧ o1.bottomObj = some b ∧
      (fork_loop st ps cs).2.2.store cobj = some o2 ∧
      o2.shadowed = some vma.obj ∧ o2.bottomObj = some b ∧
      (fork_loop st ps cs).2.2.store b = some ob ∧ vma2.aid ∈ ob.vmas := by
  intro ps
  induction ps with
  | nil =>
    intro cs st i vma vma2 b _ hp _ _ _
    simp at hp
  | cons pvma ps ih =>
    intro cs st i vma vma2 b hdom hp hc hpriv hreach
    cases cs with
    | nil => simp at hc
    | cons cvma cs =>
      cases i with
      | zero =>
        rw [List.get?_cons_zero] at hp hc
        obtain rfl : vma = pvma := (Option.some.inj hp).symm
        obtain rfl : vma2 = cvma := (Option.some.inj hc).symm
        obtain ⟨ob, hob, hblt, hp1, hc1, hnext4, _, hs1, hs2, hsb, _⟩ :=
          fork_shadow_step_private_spec st vma vma2 b hdom hpriv hreach
        obtain ⟨hpres1, hdom1, hnext1, _⟩ := fork_shadow_step_state st vma vma2 hdom
        obtain ⟨hpres2, hdom2, hnext2⟩ :=
          fork_loop_state ps cs (fork_shadow_step st vma vma2).2.2 hdom1
        obtain ⟨o1f, ho1f, ho1sh, ho1b, _⟩ := hpres2 st.next _ hs1
        obtain ⟨o2f, ho2f, ho2sh, ho2b, _⟩ := hpres2 (st.next + 1) _ hs2
        obtain ⟨obf, hobf, _, _, hvmasf⟩ := hpres2 b _ hsb
        rw [fork_loop_cons]
        refine ⟨st.next, st.next + 1, o1f, o2f, obf, ?_, ?_, by omega, le_refl _,
                by omega, ho1f, ?_, ?_, ho2f, ?_, ?_, hobf, ?_⟩
        · rw [List.get?_cons_zero, hp1]
        · rw [List.get?_cons_zero, hc1]
        · exact ho1sh
        · exact ho1b
        · exact ho2sh
        · exact ho2b
        · refine hvmasf vma2.aid ?_
          show vma2.aid ∈ ob.vmas ++ [vma2.aid]
          simp
      | succ j =>
        rw [List.get?_cons_succ] at hp hc
        obtain ⟨hpres1, hdom1, hnext1, _⟩ := fork_shadow_step_state st pvma cvma hdom
        have hreach2 := reachesBottom_mono _ _ hpres1 vma.obj b hreach
        obtain ⟨pobj, cobj, o1, o2, ob, h1, h2, h3, h4, h5, h6, h7, h8, h9, h10,
                h11, h12, h13⟩ :=
          ih cs (fork_shadow_step st pvma cvma).2.2 j vma vma2 b hdom1 hp hc hpriv hreach2
        rw [fork_loop_cons]
        refine ⟨pobj, cobj, o1, o2, ob, ?_, ?_, h3, by omega, by omega,
                h6, h7, h8, h9, h10, h11, h12, h13⟩
        · rw [List.get?_cons_succ]; exact h1
        · rw [List.get?_cons_succ]; exact h2

theorem clone_step_state (st : ForkState) (vma : VArea) :
    (clone_step st vma).2.next = st.next ∧
    (clone_step st vma).2.nextA = st.nextA + 1 ∧
    storePreserves st.store (clone_step st vma).2.store ∧
    (∀ id, ((clone_step st vma).2.store id).isSome → (st.store id).isSome) ∧
    (clone_step st vma).1 = { vma with aid := st.nextA } := by
  rcases ho : st.store vma.obj with _ | o
  · have heq : clone_step st vma =
        ({ vma with aid := st.nextA }, { st with nextA := st.nextA + 1 }) := by
      unfold clone_step
      simp only [ho]
    rw [heq]
    exact ⟨rfl, rfl, storePreserves_refl _, fun _ h => h, rfl⟩
  · have heq : clone_step st vma =
        ({ vma with aid := st.nextA },
         { store := storeUpd st.store vma.obj { o with refcount := o.refcount + 1 },
           next := st.next, nextA := st.nextA + 1 }) := by
      unfold clone_step
      simp only [ho]
    rw [heq]
    refine ⟨rfl, rfl, ?_, ?_, rfl⟩
    · intro id o2 h
      by_cases hid : id = vma.obj
      · subst hid
        have ho2 : o2 = o := Option.some.inj (h.symm.trans ho)
        subst ho2
        refine ⟨{ o2 with refcount := o2.refcount + 1 }, ?_, rfl, rfl, fun _ hx => hx⟩
        show storeUpd st.store vma.obj { o2 with refcount := o2.refcount + 1 } vma.obj =
          some { o2 with refcount := o2.refcount + 1 }
        rw [storeUpd_eq]
      · refine ⟨o2, ?_, rfl, rfl, fun _ hx => hx⟩
        show storeUpd st.store vma.obj { o with refcount := o.refcount + 1 } id = some o2
        rw [storeUpd_ne _ _ _ _ hid]
        exact h
    · intro id h
      by_cases hid : id = vma.obj
      · subst hid
        rw [ho]
        rfl
      · show (st.store id).isSome
        have h2 : ((storeUpd st.store vma.obj
            { o with refcount := o.refcount + 1 }) id).isSome = true := h
        rw [storeUpd_ne _ _ _ _ hid] at h2
        exact h2

theorem vmmap_clone_cons (st : ForkState) (vma : VArea) (rest : List VArea) :
    vmmap_clone st (vma :: rest) =
      ((clone_step st vma).1 :: (vmmap_clone (clone_step st vma).2 rest).1,
       (vmmap_clone (clone_step st vma).2 rest).2) := rfl

theorem vmmap_clone_spec : ∀ (l : List VArea) (st : ForkState),
    (vmmap_clone st l).2.next = st.next ∧
    storePreserves st.store (vmmap_clone st l).2.store ∧
    (∀ id, ((vmmap_clone st l).2.store id).isSome → (st.store id).isSome) ∧
    (∀ i, ((vmmap_clone st l).1).get? i =
      (l.get? i).map (fun a => { a with aid := st.nextA + i })) := by
  intro l
  induction l with
  | nil =>
    intro st
    refine ⟨rfl, storePreserves_refl _, fun _ h => h, ?_⟩
    intro i
    rfl
  | cons vma rest ih =>
    intro st
    obtain ⟨hn1, hA1, hp1, hd1, ha1⟩ := clone_step_state st vma
    obtain ⟨hn2, hp2, hd2, hg2⟩ := ih (clone_step st vma).2
    rw [vmmap_clone_cons]
    refine ⟨by rw [hn2, hn1], storePreserves_trans _ _ _ hp1 hp2,
            fun id h => hd1 id (hd2 id h), ?_⟩
    intro i
    cases i with
    | zero =>
      rw [List.get?_cons_zero, List.get?_cons_zero, ha1]
      rfl
    | succ j =>
      rw [List.get?_cons_succ, List.get?_cons_succ, hg2 j, hA1]
      have heqn : st.nextA + 1 + j = st.nextA + (j + 1) := by omega
      rw [heqn]

/-- C2: for every private parent area (index `i`, pre-fork mmobj
`vma.obj`, chain bottom `b`), after the fork path the parent's and
child's areas carry two distinct, freshly allocated shadow objects, each
with `mmo_shadowed` pointing at the parent's pre-fork mmobj and
`mmo_un.mmo_bottom_obj` at the bottom non-shadow object of that chain,
and the child's vmarea is enlisted in the bottom object's vmarea set. -/
theorem do_fork_vm_private_shadow_pair (st : ForkState) (parent : List VArea)
    (i : Nat) (vma : VArea) (b : Nat)
    (hdom : domBelow st)
    (hp : parent.get? i = some vma)
    (hpriv : vma.flags &&& MAP_PRIVATE ≠ 0)
    (hreach : ReachesBottom st.store vma.obj b) :
    ∃ pobj cobj o1 o2 ob,
      (do_fork_vm st parent).1.get? i = some { vma with obj := pobj } ∧
      (do_fork_vm st parent).2.1.get? i =
        some { vma with obj := cobj, aid := st.nextA + i } ∧
      pobj ≠ cobj ∧ st.store pobj = none ∧ st.store cobj = none ∧
      (do_fork_vm st parent).2.2.store pobj = some o1 ∧
      o1.shadowed = some vma.obj ∧ o1.bottomObj = some b ∧
      (do_fork_vm st parent).2.2.store cobj = some o2 ∧
      o2.shadowed = some vma.obj ∧ o2.bottomObj = some b ∧
      (do_fork_vm st parent).2.2.store b = some ob ∧
      (st.nextA + i) ∈ ob.vmas := by
  obtain ⟨hnext1, hpres1, hdomsub, hget⟩ := vmmap_clone_spec parent st
  have hdom1 : domBelow (vmmap_clone st parent).2 := by
    intro id h
    rw [hnext1]
    exact hdom id (hdomsub id h)
  have hc : ((vmmap_clone st parent).1).get? i =
      some { vma with aid := st.nextA + i } := by
    rw [hget i, hp]
    rfl
  have hreach1 := reachesBottom_mono _ _ hpres1 vma.obj b hreach
  obtain ⟨pobj, cobj, o1, o2, ob, h1, h2, h3, h4, h5, h6, h7, h8, h9, h10, h11,
          h12, h13⟩ :=
    fork_loop_private_spec parent (vmmap_clone st parent).1 (vmmap_clone st parent).2
      i vma { vma with aid := st.nextA + i } b hdom1 hp hc hpriv hreach1
  rw [hnext1] at h4 h5
  have hpnone : st.store pobj = none := by
    rcases hx : st.store pobj with _ | o
    · rfl
    · have := hdom pobj (by rw [hx]; rfl)
      omega
  have hcnone : st.store cobj = none := by
    rcases hx : st.store cobj with _ | o
    · rfl
    · have := hdom cobj (by rw [hx]; rfl)
      omega
  exact ⟨pobj, cobj, o1, o2, ob, h1, h2, h3, hpnone, hcnone, h6, h7, h8, h9,
         h10, h11, h12, h13⟩

/-- Witness for C2: a one-area private map over a single anonymous bottom
object (id 0), forked from a state whose allocator is at 1. -/
theorem do_fork_vm_private_shadow_pair_witness :
    ∃ pobj cobj o1 o2 ob,
      (do_fork_vm
          { store := fun i => if i = 0 then
              some { shadowed := none, bottomObj := none, refcount := 1,
                     respages := [], vmas := [] } else none,
            next := 1, nextA := 7 }
          [{ start := 0x400, end_ := 0x401, off := 0, prot := 3,
             flags := MAP_PRIVATE, obj := 0, aid := 3 }]).1.get? 0 =
        some { start := 0x400, end_ := 0x401, off := 0, prot := 3,
               flags := MAP_PRIVATE, obj := pobj, aid := 3 } ∧
      (do_fork_vm
          { store := fun i => if i = 0 then
              some { shadowed := none, bottomObj := none, refcount := 1,
                     respages := [], vmas := [] } else none,
            next := 1, nextA := 7 }
          [{ start := 0x400, end_ := 0x401, off := 0, prot := 3,
             flags := MAP_PRIVATE, obj := 0, aid := 3 }]).2.1.get? 0 =
        some { start := 0x400, end_ := 0x401, off := 0, prot := 3,
               flags := MAP_PRIVATE, obj := cobj, aid := 7 } ∧
      pobj ≠ cobj ∧
      (if pobj = 0 then
         some ({ shadowed := none, bottomObj := none, refcount := 1,
                 respages := [], vmas := [] } : MMObjRec) else none) = none ∧
      (if cobj = 0 then
         some ({ shadowed := none, bottomObj := none, refcount := 1,
                 respages := [], vmas := [] } : MMObjRec) else none) = none ∧
      (do_fork_vm
          { store := fun i => if i = 0 then
              some { shadowed := none, bottomObj := none, refcount := 1,
                     respages := [], vmas := [] } else none,
            next := 1, nextA := 7 }
          [{ start := 0x400, end_ := 0x401, off := 0, prot := 3,
             flags := MAP_PRIVATE, obj := 0, aid := 3 }]).2.2.store pobj = some o1 ∧
      o1.shadowed = some 0 ∧ o1.bottomObj = some 0 ∧
      (do_fork_vm
          { store := fun i => if i = 0 then
              some { shadowed := none, bottomObj := none, refcount := 1,
                     respages := [], vmas := [] } else none,
            next := 1, nextA := 7 }
          [{ start := 0x400, end_ := 0x401, off := 0, prot := 3,
             flags := MAP_PRIVATE, obj := 0, aid := 3 }]).2.2.store cobj = some o2 ∧
      o2.shadowed = some 0 ∧ o2.bottomObj = some 0 ∧
      (do_fork_vm
          { store := fun i => if i = 0 then
              some { shadowed := none, bottomObj := none, refcount := 1,
                     respages := [], vmas := [] } else none,
            next := 1, nextA := 7 }
          [{ start := 0x400, end_ := 0x401, off := 0, prot := 3,
             flags := MAP_PRIVATE, obj := 0, aid := 3 }]).2.2.store 0 = some ob ∧
      7 ∈ ob.vmas :=
  do_fork_vm_private_shadow_pair
    { store := fun i => if i = 0 then
        some { shadowed := none, bottomObj := none, refcount := 1,
               respages := [], vmas := [] } else none,
      next := 1, nextA := 7 }
    [{ start := 0x400, end_ := 0x401, off := 0, prot := 3,
       flags := MAP_PRIVATE, obj := 0, aid := 3 }]
    0
    { start := 0x400, end_ := 0x401, off := 0, prot := 3,
      flags := MAP_PRIVATE, obj := 0, aid := 3 }
    0
    (by
      intro id h
      by_cases hid : id = 0
      · subst hid
        show (0 : Nat) < 1
        decide
      · have h2 : (if id = 0 then
            some ({ shadowed := none, bottomObj := none, refcount := 1,
                    respages := [], vmas := [] } : MMObjRec) else none).isSome = true := h
        rw [if_neg hid] at h2
        simp at h2)
    rfl
    (by decide)
    (ReachesBottom.base 0
      { shadowed := none, bottomObj := none, refcount := 1, respages := [], vmas := [] }
      rfl rfl)

end Weenix
